import Mathlib

/-
Verification of the aggregation pipeline of app.py (Universal Health Agent).
The Python source is embedded shallowly: pure functions become Lean functions
on List Char / String / Nat; Python ints are Nat (all counters here are
non-negative); network calls are modelled as explicit outcome parameters
(Except for a whole-feed fetch, String → Option String for the thumbnail
oracle); the log file is a String state threaded through the two operations
that write it.  Machine integers inside SHA-1 are Nat with explicit
% 4294967296 where 32-bit overflow matters.
-/

set_option maxRecDepth 1000000

-- ---------------------------------------------------------------------------
-- Generic character and string helpers
-- ---------------------------------------------------------------------------

/-- Whitespace recognised by the regular-expression class backslash-s of the
source (space, tab, newline, carriage return, vertical tab, form feed);
the source operates on ASCII feed text. -/
def isSpaceChar (c : Char) : Bool :=
  decide (c = ' ') || decide (c = '\t') || decide (c = '\n') || decide (c = '\r') ||
  decide (c = '\x0b') || decide (c = '\x0c')

/-- Replace every maximal whitespace run by a single space, as the source
regex substitution of backslash-s-plus with a single space does.  The Bool
argument records whether the previous character was part of a run. -/
def collapseWsAux : List Char → Bool → List Char
  | [], _ => []
  | c :: rest, prevSpace =>
    if isSpaceChar c then
      if prevSpace then collapseWsAux rest true
      else ' ' :: collapseWsAux rest true
    else c :: collapseWsAux rest false

/-- Drop leading and trailing whitespace, as Python str.strip does. -/
def stripChars (l : List Char) : List Char :=
  ((l.dropWhile isSpaceChar).reverse.dropWhile isSpaceChar).reverse

/-- Python str.strip on a String. -/
def stripStr (s : String) : String := String.mk (stripChars s.data)

/-- Model of re.sub(backslash-s-plus, a single space, s).strip() as used at
lines 64 and 72 of the source. -/
def collapseWsStrip (s : String) : String :=
  String.mk (stripChars (collapseWsAux s.data false))

/-- ASCII lowercasing of a string, modelling Python str.lower on the ASCII
hosts and feed titles the pipeline handles. -/
def lowerStr (s : String) : String := String.mk (s.data.map Char.toLower)

/-- Code-point comparison of characters, the order Python uses on str. -/
def charLtB (a b : Char) : Bool := decide (a.toNat < b.toNat)

/-- Lexicographic less-or-equal on character lists by code point; this is the
comparison Python applies to str values, as used by list.sort and sorted. -/
def listLeB : List Char → List Char → Bool
  | [], _ => true
  | _ :: _, [] => false
  | a :: as, b :: bs => if charLtB a b then true else if charLtB b a then false else listLeB as bs

/-- Python string comparison (less-or-equal) on Lean strings. -/
def strLeB (a b : String) : Bool := listLeB a.data b.data

/-- Membership of a string in a list of strings, modelling the Python
expression k in seen on the seen set of the dedup loops. -/
def strListContains : List String → String → Bool
  | [], _ => false
  | s :: rest, k => decide (s = k) || strListContains rest k

/-- Bool test that p is a prefix of s (character lists). -/
def startsWithB : List Char → List Char → Bool
  | [], _ => true
  | _ :: _, [] => false
  | a :: as, b :: bs => decide (a = b) && startsWithB as bs

/-- Bool test that a character list contains a space. -/
def hasSpace : List Char → Bool
  | [] => false
  | c :: rest => decide (c = ' ') || hasSpace rest

/-- Python truthiness fallback a or b for an optional string a: the fallback
is taken when a is absent or empty. -/
def pyOrStr (a : Option String) (b : String) : String :=
  match a with
  | none => b
  | some s => if s = "" then b else s

-- ---------------------------------------------------------------------------
-- SHA-1 (hashlib.sha1 used by normalize_key, line 74)
-- ---------------------------------------------------------------------------

/-- Rotate a 32-bit word left by k bits. -/
def rotl (k n : Nat) : Nat := ((n <<< k) ||| (n >>> (32 - k))) % 4294967296

/-- Big-endian byte expansion of n on k bytes. -/
def beBytes : Nat → Nat → List Nat
  | 0, _ => []
  | k+1, n => ((n >>> (8*k)) % 256) :: beBytes k n

/-- SHA-1 message padding: a 0x80 byte, zeros to 56 mod 64, then the bit
length on eight big-endian bytes. -/
def padBytes (msg : List Nat) : List Nat :=
  let len := msg.length
  let zeros := (64 - (len + 9) % 64) % 64
  msg ++ [0x80] ++ List.replicate zeros 0 ++ beBytes 8 (len * 8)

/-- Pack bytes into 32-bit big-endian words. -/
def bytesToWords : List Nat → List Nat
  | b0 :: b1 :: b2 :: b3 :: rest =>
    ((b0 <<< 24) ||| (b1 <<< 16) ||| (b2 <<< 8) ||| b3) :: bytesToWords rest
  | _ => []

/-- One step of the SHA-1 message-schedule expansion. -/
def expandStep (w : List Nat) : List Nat :=
  w ++ [rotl 1 ((w.getD (w.length - 3) 0) ^^^ (w.getD (w.length - 8) 0) ^^^
                (w.getD (w.length - 14) 0) ^^^ (w.getD (w.length - 16) 0))]

/-- Iterate a function n times. -/
def iterSteps {α : Type} (f : α → α) : Nat → α → α
  | 0, a => a
  | n+1, a => iterSteps f n (f a)

/-- SHA-1 round function. -/
def sha1F (i b c d : Nat) : Nat :=
  if i < 20 then (b &&& c) ||| ((b ^^^ 0xFFFFFFFF) &&& d)
  else if i < 40 then b ^^^ c ^^^ d
  else if i < 60 then (b &&& c) ||| (b &&& d) ||| (c &&& d)
  else b ^^^ c ^^^ d

/-- SHA-1 round constants. -/
def sha1K (i : Nat) : Nat :=
  if i < 20 then 0x5A827999 else if i < 40 then 0x6ED9EBA1
  else if i < 60 then 0x8F1BBCDC else 0xCA62C1D6

/-- State of the five SHA-1 chaining words. -/
abbrev Sha1State := Nat × Nat × Nat × Nat × Nat

/-- The 80 compression rounds over the indexed message schedule. -/
def sha1Rounds : List (Nat × Nat) → Sha1State → Sha1State
  | [], st => st
  | (i, wi) :: rest, st =>
    let (a, b, c, d, e) := st
    let temp := (rotl 5 a + sha1F i b c d + e + sha1K i + wi) % 4294967296
    sha1Rounds rest (temp, a, rotl 30 b, c, d)

/-- Final addition of one compression result into the chaining state,
componentwise modulo 2 to the 32. -/
def mixWords (x y : Sha1State) : Sha1State :=
  ((x.1 + y.1) % 4294967296, (x.2.1 + y.2.1) % 4294967296, (x.2.2.1 + y.2.2.1) % 4294967296,
   (x.2.2.2.1 + y.2.2.2.1) % 4294967296, (x.2.2.2.2 + y.2.2.2.2) % 4294967296)

/-- Compress one 64-byte block into the chaining state. -/
def processBlock (block : List Nat) (h : Sha1State) : Sha1State :=
  mixWords h (sha1Rounds ((List.range 80).zip (iterSteps expandStep 64 (bytesToWords block))) h)

/-- Split a byte list into 64-byte chunks; the fuel argument (instantiated
with the list length) keeps the recursion structural. -/
def chunksFuel : Nat → List Nat → List (List Nat)
  | 0, _ => []
  | _, [] => []
  | fuel+1, b :: rest => ((b :: rest).take 64) :: chunksFuel fuel ((b :: rest).drop 64)

/-- SHA-1 digest of a byte list as the five 32-bit result words. -/
def sha1Words (msg : List Nat) : Sha1State :=
  let padded := padBytes msg
  (chunksFuel padded.length padded).foldl (fun h b => processBlock b h)
    (0x67452301, 0xEFCDAB89, 0x98BADCFE, 0x10325476, 0xC3D2E1F0)

/-- Lowercase hex digit for a value below 16. -/
def hexDigitChar (n : Nat) : Char := if n < 10 then Char.ofNat (48 + n) else Char.ofNat (87 + n)

/-- Eight hex digits of a 32-bit word, most significant first. -/
def hex8 (n : Nat) : List Char :=
  [hexDigitChar ((n >>> 28) % 16), hexDigitChar ((n >>> 24) % 16),
   hexDigitChar ((n >>> 20) % 16), hexDigitChar ((n >>> 16) % 16),
   hexDigitChar ((n >>> 12) % 16), hexDigitChar ((n >>> 8) % 16),
   hexDigitChar ((n >>> 4) % 16), hexDigitChar (n % 16)]

/-- Hex rendering of the digest words, the value of hexdigest(). -/
def hexOfWords (h : Sha1State) : String :=
  String.mk (hex8 h.1 ++ hex8 h.2.1 ++ hex8 h.2.2.1 ++ hex8 h.2.2.2.1 ++ hex8 h.2.2.2.2)

/-- SHA-1 hex digest of a byte list. -/
def sha1Hex (msg : List Nat) : String := hexOfWords (sha1Words msg)

/-- UTF-8 encoding of one code point, as Python str.encode produces. -/
def utf8EncodeCharNat (c : Nat) : List Nat :=
  if c < 0x80 then [c]
  else if c < 0x800 then [0xC0 ||| (c >>> 6), 0x80 ||| (c &&& 0x3F)]
  else if c < 0x10000 then
    [0xE0 ||| (c >>> 12), 0x80 ||| ((c >>> 6) &&& 0x3F), 0x80 ||| (c &&& 0x3F)]
  else
    [0xF0 ||| (c >>> 18), 0x80 ||| ((c >>> 12) &&& 0x3F),
     0x80 ||| ((c >>> 6) &&& 0x3F), 0x80 ||| (c &&& 0x3F)]

/-- UTF-8 bytes of a character list. -/
def utf8BytesAux : List Char → List Nat
  | [] => []
  | c :: rest => utf8EncodeCharNat c.toNat ++ utf8BytesAux rest

/-- UTF-8 bytes of a string, modelling Python str.encode(). -/
def utf8Bytes (s : String) : List Nat := utf8BytesAux s.data

-- ---------------------------------------------------------------------------
-- URL host extraction (urllib.parse.urlparse().netloc, used at lines 71, 492)
-- ---------------------------------------------------------------------------

/-- Characters allowed in a URL scheme after the leading letter. -/
def isSchemeChar (c : Char) : Bool := c.isAlphanum || decide (c = '+') || decide (c = '-') || decide (c = '.')

/-- Strip a leading scheme: prefix, mirroring urlsplit scheme detection
(a letter followed by letters, digits, plus, minus or dot, then a colon). -/
def afterScheme (l : List Char) : List Char :=
  let pre := l.takeWhile (fun c => decide (c ≠ ':'))
  if pre.length < l.length ∧ pre ≠ [] ∧
      (match pre with | c :: _ => c.isAlpha | [] => false) = true ∧ pre.all isSchemeChar then
    l.drop (pre.length + 1)
  else l

/-- Network-location of a URL in the manner of urllib.parse.urlparse: after
removing an optional scheme, a netloc is present only when the remainder
starts with two slashes, and extends to the first slash, question mark or
hash.  Stray control characters and whitespace are not modelled, matching
the URLs the pipeline passes in. -/
def netlocOf (url : String) : String :=
  match afterScheme url.data with
  | '/' :: '/' :: t =>
    String.mk (t.takeWhile (fun c => decide (c ≠ '/') && decide (c ≠ '?') && decide (c ≠ '#')))
  | _ => ""

/-- Source lines 491-495: urlparse(u).netloc.lower() with an empty fallback. -/
def domain_of (u : String) : String := lowerStr (netlocOf u)

-- ---------------------------------------------------------------------------
-- normalize_key (source lines 70-74)
-- ---------------------------------------------------------------------------

/-- Normalised title of source lines 72-73: lowercase, collapse whitespace,
strip, then delete every character outside lowercase letters, digits and
space. -/
def normTitle (title : String) : String :=
  let t := collapseWsStrip (lowerStr title)
  String.mk (t.data.filter (fun c =>
    (decide ('a' ≤ c) && decide (c ≤ 'z')) || (decide ('0' ≤ c) && decide (c ≤ '9')) ||
    decide (c = ' ')))

/-- String hashed by normalize_key: lowercased host, a bar, normalised title. -/
def keyStr (title link : String) : String := lowerStr (netlocOf link) ++ "|" ++ normTitle title

/-- Source lines 70-74: sha1 hex digest over host and normalised title. -/
def normalize_key (title link : String) : String := sha1Hex (utf8Bytes (keyStr title link))

-- ---------------------------------------------------------------------------
-- clean_text and truncate (source lines 60-68)
-- ---------------------------------------------------------------------------

/-- Scan for the closing angle bracket of a non-greedy tag match; gives the
characters after it, or none when a newline or the end intervenes (dot does
not match newline in the source regex). -/
def afterGt : List Char → Option (List Char)
  | [] => none
  | '>' :: rest => some rest
  | '\n' :: _ => none
  | _ :: rest => afterGt rest

/-- Replacement of every non-greedy tag-like span by one space, modelling
re.sub on the angle-bracket pattern of line 63; fuel is instantiated with
the list length to keep recursion structural. -/
def stripTagsFuel : Nat → List Char → List Char
  | 0, l => l
  | fuel+1, l =>
    match l with
    | [] => []
    | '<' :: rest =>
      match afterGt rest with
      | some rest2 => ' ' :: stripTagsFuel fuel rest2
      | none => '<' :: stripTagsFuel fuel rest
    | c :: rest => c :: stripTagsFuel fuel rest

/-- Source lines 60-64: drop tag-like spans, collapse whitespace, strip.
The empty-input early return of line 61 coincides with the general path. -/
def clean_text (s : String) : String :=
  collapseWsStrip (String.mk (stripTagsFuel s.data.length s.data))

/-- Python rsplit on a single space with maxsplit one, first component: the
part before the last space, or the whole list when no space occurs. -/
def beforeLastSpace : List Char → List Char
  | [] => []
  | c :: rest =>
    if hasSpace rest then c :: beforeLastSpace rest
    else if decide (c = ' ') then []
    else c :: rest

/-- Source lines 66-68: clean, then either return short text unchanged or cut
at n characters, backtrack to the last space, and append one ellipsis. -/
def truncate (s : String) (n : Nat := 360) : String :=
  let t := clean_text s
  if t.length ≤ n then t
  else String.mk (beforeLastSpace (t.data.take n)) ++ "…"

-- ---------------------------------------------------------------------------
-- Items and the aggregation pipeline (source lines 162-235)
-- ---------------------------------------------------------------------------

/-- One aggregated feed item, the dictionary built at lines 169-178. -/
structure Item where
  source : String
  title : String
  link : String
  summary : String
  date : String
  image : Option String
deriving DecidableEq

/-- Fingerprint of an item, the dedup key of line 214. -/
def keyOf (it : Item) : String := normalize_key it.title it.link

/-- Validity test of line 212: both title and link non-empty. -/
def validB (it : Item) : Bool := !(decide (it.title = "") || decide (it.link = ""))

/-- Dedup loop of source lines 209-220: skip items with empty title or link,
skip fingerprints already seen, append the rest, and stop as soon as the
kept list has reached max_total entries. -/
def dedupAux (max_total : Nat) : List Item → List String → List Item → List Item
  | [], _, deduped => deduped
  | it :: rest, seen, deduped =>
    if it.title = "" ∨ it.link = "" then dedupAux max_total rest seen deduped
    else
      let k := normalize_key it.title it.link
      if strListContains seen k then dedupAux max_total rest seen deduped
      else
        if max_total ≤ (deduped ++ [it]).length then deduped ++ [it]
        else dedupAux max_total rest (k :: seen) (deduped ++ [it])

/-- Deduplication stage of aggregate with its cap. -/
def dedup (max_total : Nat) (all_items : List Item) : List Item :=
  dedupAux max_total all_items [] []

/-- Modelled from the spec: the uncapped first-seen-wins deduplication
(section 8, Deduplication), used as the reference the capped loop is
compared against. -/
def fsAux : List Item → List String → List Item
  | [], _ => []
  | it :: rest, seen =>
    if it.title = "" ∨ it.link = "" then fsAux rest seen
    else if strListContains seen (keyOf it) then fsAux rest seen
    else it :: fsAux rest (keyOf it :: seen)

/-- Modelled from the spec: first-seen-wins deduplication of a whole list. -/
def firstSeenSpec (l : List Item) : List Item := fsAux l []

/-- Seen-set accumulated by the first-seen traversal, used to split it over
list concatenation. -/
def seenAfter : List Item → List String → List String
  | [], seen => seen
  | it :: rest, seen =>
    if it.title = "" ∨ it.link = "" then seenAfter rest seen
    else if strListContains seen (keyOf it) then seenAfter rest seen
    else seenAfter rest (keyOf it :: seen)

/-- Thumbnail enrichment of source lines 225-231: stop when the budget is
exhausted, query the oracle per item, set the image and decrement only on
success.  The oracle fetchImg stands for get_og_image. -/
def enrich (fetchImg : String → Option String) : Nat → List Item → List Item
  | _, [] => []
  | budget, it :: rest =>
    if budget ≤ 0 then it :: rest
    else
      match fetchImg it.link with
      | some img => { it with image := some img } :: enrich fetchImg (budget - 1) rest
      | none => it :: enrich fetchImg budget rest

/-- Order used by the final sort of line 234: descending by the date string
(the key function maps an item to its date, the empty-string fallback being
the identity on string fields). -/
def rItem (x y : Item) : Prop := strLeB y.date x.date = true

instance : DecidableRel rItem := fun x y => inferInstanceAs (Decidable (strLeB y.date x.date = true))

/-- Source line 234: list.sort(key=date, reverse=True).  Python list.sort is
stable, so it is modelled by the stable insertion sort under the descending
order rItem. -/
def sortByDateDesc (l : List Item) : List Item := List.insertionSort rItem l

/-- Pure core of aggregate (source lines 204-235) given the flattened fetch
results: dedup with cap, budgeted thumbnail enrichment, stable sort newest
first. -/
def aggregate (fetchImg : String → Option String) (max_total thumb_budget : Nat)
    (all_items : List Item) : List Item :=
  sortByDateDesc (enrich fetchImg thumb_budget (dedup max_total all_items))

-- ---------------------------------------------------------------------------
-- Feed fetching (source lines 162-185, 204-206)
-- ---------------------------------------------------------------------------

/-- Raw feed entry as consumed at lines 168-178.  The optional string fields
mirror e.get on the feedparser entry; parsedDate carries the result of the
Date Resolver parse_date for the entry, whose internal fallback chain is not
at issue in any claim. -/
structure Entry where
  title : Option String
  link : Option String
  summary : Option String
  description : Option String
  parsedDate : String
deriving DecidableEq

/-- Mapping of one raw entry to an Item, source lines 169-178. -/
def entryToItem (source : String) (e : Entry) : Item :=
  { source := source
    title := stripStr (pyOrStr e.title "")
    link := stripStr (pyOrStr e.link "")
    summary := truncate (pyOrStr e.summary (pyOrStr e.description "")) 360
    date := e.parsedDate
    image := none }

/-- Source lines 162-185: fetch one feed.  The fetched argument models the
outcome of the request plus feedparser parse; on an exception the items list
is still empty when the handler runs, so the function yields no items (the
log call and the courtesy sleep are side effects outside this model). -/
def fetch_feed (source : String) (fetched : Except String (List Entry)) (limit : Nat) : List Item :=
  match fetched with
  | Except.error _ => []
  | Except.ok entries => (entries.take limit).map (entryToItem source)

/-- Flattening loop of source lines 204-206: concatenate the per-feed item
lists in feed-list order. -/
def allItems : List (String × Except String (List Entry)) → Nat → List Item
  | [], _ => []
  | (src, res) :: rest, limit => fetch_feed src res limit ++ allItems rest limit

-- ---------------------------------------------------------------------------
-- Archive builder (source lines 263-267 and 344-354)
-- ---------------------------------------------------------------------------

/-- Month key of source lines 265-266: the first seven characters of the
first ten characters of the date, or the sentinel unknown for an empty
date. -/
def monthKey (it : Item) : String :=
  let d := String.mk (it.date.data.take 10)
  if d = "" then "unknown" else String.mk (d.data.take 7)

/-- Append an item under its key in the insertion-ordered association list,
modelling dict.setdefault(ym, []).append(it) of line 267. -/
def addToMonth : List (String × List Item) → String → Item → List (String × List Item)
  | [], k, it => [(k, [it])]
  | (k0, arr) :: rest, k, it =>
    if k0 = k then (k0, arr ++ [it]) :: rest
    else (k0, arr) :: addToMonth rest k it

/-- Grouping loop of source lines 263-267. -/
def byMonthAux : List Item → List (String × List Item) → List (String × List Item)
  | [], m => m
  | it :: rest, m => byMonthAux rest (addToMonth m (monthKey it) it)

/-- Partition of the item list by month key. -/
def byMonth (items : List Item) : List (String × List Item) := byMonthAux items []

/-- Bucket of a key in the partition (empty when the key is absent). -/
def lookupMonth : List (String × List Item) → String → List Item
  | [], _ => []
  | (k0, arr) :: rest, k => if k0 = k then arr else lookupMonth rest k

/-- Descending string order used by sorted(by_month.keys(), reverse=True). -/
def rStr (a b : String) : Prop := strLeB b a = true

instance : DecidableRel rStr := fun a b => inferInstanceAs (Decidable (strLeB b a = true))

/-- Source line 344: month keys sorted descending by plain string
comparison. -/
def monthsDesc (items : List Item) : List String :=
  List.insertionSort rStr ((byMonth items).map Prod.fst)

-- ---------------------------------------------------------------------------
-- Log file state (source lines 48-55 and 481-484)
-- ---------------------------------------------------------------------------

/-- Source lines 48-55: log appends one timestamped line to the current log
file content (the file is opened with mode a). -/
def log (content ts msg : String) : String :=
  content ++ ("[" ++ ts ++ "] " ++ msg ++ "\n")

/-- Source lines 481-484: build rewrites the log file with a three-line
summary via write_text, replacing whatever content the file held. -/
def buildLogWrite (ts query : String) (nItems : Nat) : String :=
  "Generated: " ++ ts ++ "\n" ++ "Query: " ++ (if query = "" then "—" else query) ++ "\n" ++
    "Items: " ++ toString nItems ++ "\n"

-- ---------------------------------------------------------------------------
-- Catalog builder (source lines 619-681)
-- ---------------------------------------------------------------------------

/-- Raw scraped record as produced by make_record (source lines 511-514);
the kind tag field of the dictionary is written with two leading
underscores in the source. -/
structure RawRec where
  name : String
  url : String
  image : Option String
  kind : String
  location : Option String
  tags : List String
deriving DecidableEq

/-- Dedup key of source lines 628-631: stripped lowercased name and link
domain, or none when either is empty. -/
def kfn (x : RawRec) : Option String :=
  let nm := lowerStr (stripStr x.name)
  let domain := domain_of x.url
  if nm ≠ "" ∧ domain ≠ "" then some (nm ++ "|" ++ domain) else none

/-- Dedup loop of source lines 633-640: records with no key or an
already-seen key are skipped. -/
def catDedupAux : List RawRec → List String → List RawRec → List RawRec
  | [], _, acc => acc
  | x :: rest, seen, acc =>
    match kfn x with
    | none => catDedupAux rest seen acc
    | some k =>
      if strListContains seen k then catDedupAux rest seen acc
      else catDedupAux rest (k :: seen) (acc ++ [x])

/-- Program bucket record of source lines 646-656. -/
structure ProgramOut where
  name : String
  category : String
  description : String
  location : String
  url : String
  image : Option String
  tags : List String
deriving DecidableEq

/-- Expert bucket record of source lines 658-667. -/
structure ExpertOut where
  name : String
  specialty : String
  location : String
  rating : Option Nat
  url : String
  image : Option String
  tags : List String
deriving DecidableEq

/-- Institution bucket record of source lines 670-679. -/
structure InstitutionOut where
  name : String
  focus : String
  location : String
  url : String
  image : Option String
  tags : List String
deriving DecidableEq

/-- The three persisted catalog buckets. -/
structure CatalogOut where
  programs : List ProgramOut
  experts : List ExpertOut
  institutions : List InstitutionOut
deriving DecidableEq

/-- Program record construction, source lines 646-656. -/
def mkProgram (rec : RawRec) : ProgramOut :=
  { name := rec.name, category := "—", description := "External resource from roadmap",
    location := "—", url := rec.url, image := rec.image, tags := rec.tags }

/-- Expert record construction, source lines 658-667. -/
def mkExpert (rec : RawRec) : ExpertOut :=
  { name := rec.name, specialty := "—", location := pyOrStr rec.location "—", rating := none,
    url := rec.url, image := rec.image, tags := rec.tags }

/-- Institution record construction, source lines 670-679. -/
def mkInstitution (rec : RawRec) : InstitutionOut :=
  { name := rec.name, focus := "Longevity / Clinic / Biotech",
    location := pyOrStr rec.location "—", url := rec.url, image := rec.image, tags := rec.tags }

/-- Bucketing loop of source lines 642-679, keyed on the lowercased kind. -/
def bucketize : List RawRec → CatalogOut
  | [] => { programs := [], experts := [], institutions := [] }
  | rec :: rest =>
    let r := bucketize rest
    let t := lowerStr rec.kind
    if t = "program" then { r with programs := mkProgram rec :: r.programs }
    else if t = "expert" then { r with experts := mkExpert rec :: r.experts }
    else { r with institutions := mkInstitution rec :: r.institutions }

/-- Pure core of build_catalog (source lines 619-681) given the already
scraped raw records: global dedup by name and domain, then bucketing. -/
def build_catalog (raw : List RawRec) : CatalogOut :=
  bucketize (catDedupAux raw [] [])

-- ---------------------------------------------------------------------------
-- Bounds and encodings used to reason about SHA-1 digests
-- ---------------------------------------------------------------------------

/-- All five digest words below 2 to the 32. -/
def boundedWords (h : Sha1State) : Prop :=
  h.1 < 4294967296 ∧ h.2.1 < 4294967296 ∧ h.2.2.1 < 4294967296 ∧
    h.2.2.2.1 < 4294967296 ∧ h.2.2.2.2 < 4294967296

/-- Digest words packed into one natural number below 2 to the 160. -/
def encodeWords (h : Sha1State) : Nat :=
  (((h.1 * 4294967296 + h.2.1) * 4294967296 + h.2.2.1) * 4294967296 + h.2.2.2.1) * 4294967296 +
    h.2.2.2.2

/-- String of n copies of the letter a, used to build fingerprint inputs. -/
def aStr (n : Nat) : String := String.mk (List.replicate n 'a')

-- ---------------------------------------------------------------------------
-- Formalised statements of claim properties used by counterexamples
-- ---------------------------------------------------------------------------

/-- Claim C1 as stated, at one input: every deduplicated item is valid, and
for each fingerprint of a valid input item the deduplicated output holds
exactly the first-occurring input item of that fingerprint. -/
def c1ClaimAt (max_total : Nat) (l : List Item) : Prop :=
  (∀ it ∈ dedup max_total l, validB it = true) ∧
  ∀ k ∈ (l.filter validB).map keyOf,
    (dedup max_total l).filter (fun it => decide (keyOf it = k)) =
      ((l.filter validB).find? (fun it => decide (keyOf it = k))).toList

instance (max_total : Nat) (l : List Item) : Decidable (c1ClaimAt max_total l) := by
  unfold c1ClaimAt; infer_instance

/-- Bool test that out is a prefix of s up to a word boundary followed by the
ellipsis character: the last character is the ellipsis, the rest is a prefix
of s, and that prefix ends at the end of s, right before a space of s, or
right after a space. -/
def wordBoundaryEllipsis (s out : String) : Bool :=
  let w := out.data.dropLast
  decide (out.data.getLast? = some '…') && decide (s.data.take w.length = w) &&
    (decide (w.length = s.data.length) || decide (s.data.getD w.length '…' = ' ') ||
      decide (w.getLast? = some ' '))

/-- Claim C6 as stated, at one input: bounded length, short inputs returned
unchanged, and truncated outputs ending at a word boundary plus ellipsis. -/
def c6ClaimAt (s : String) (n : Nat) : Prop :=
  (truncate s n).length ≤ n + 1 ∧
  ((clean_text s).length ≤ n → truncate s n = clean_text s) ∧
  (n < (clean_text s).length → wordBoundaryEllipsis (clean_text s) (truncate s n) = true)

instance (s : String) (n : Nat) : Decidable (c6ClaimAt s n) := by
  unfold c6ClaimAt; infer_instance

-- ---------------------------------------------------------------------------
-- Concrete fixtures for witnesses and counterexamples
-- ---------------------------------------------------------------------------

/-- Valid dated item on host x.com. -/
def itemA : Item :=
  { source := "NIH", title := "Alpha", link := "http://x.com/1", summary := "",
    date := "2024-03-15 10:00:00", image := none }

/-- Valid undated item on host y.com. -/
def itemB : Item :=
  { source := "WHO", title := "Beta", link := "http://y.com/2", summary := "",
    date := "", image := none }

/-- Item with an empty title, to be dropped by the dedup stage. -/
def itemNoTitle : Item :=
  { source := "CDC", title := "", link := "http://z.com/3", summary := "",
    date := "2024-04-01 00:00:00", image := none }

/-- Raw feed entry fixture. -/
def entryA : Entry :=
  { title := some "Alpha", link := some "http://x.com/1", summary := some "short summary",
    description := none, parsedDate := "2024-03-15 10:00:00" }

/-- Raw catalog record fixture of kind program. -/
def rawA : RawRec :=
  { name := "Road Map", url := "https://lifespan.io/a", image := none, kind := "program",
    location := none, tags := ["roadmap"] }

/-- Raw catalog record with an empty name, to be dropped by the catalog
dedup stage. -/
def rawBad : RawRec :=
  { name := "", url := "https://x.com/", image := none, kind := "institution",
    location := none, tags := [] }

/-- Log content after one append to an empty log. -/
def prevLog : String := log "" "2025-01-01 00:00 UTC" "Fetched 3 from NIH"

-- ---------------------------------------------------------------------------
-- Generic lemmas on the string helpers
-- ---------------------------------------------------------------------------

theorem charToNat_inj {a b : Char} (h : a.toNat = b.toNat) : a = b := by
  have hv : a.val = b.val := by
    apply UInt32.eq_of_toBitVec_eq
    apply BitVec.eq_of_toNat_eq
    exact h
  exact Char.eq_of_val_eq hv

theorem strData_append (s t : String) : (s ++ t).data = s.data ++ t.data := rfl

theorem strOfDataNil {s : String} (h : s.data = []) : s = "" := by
  cases s; simp_all

theorem strOfDataEq {s t : String} (h : s.data = t.data) : s = t := by
  cases s; cases t; simp_all

theorem listLeB_refl (l : List Char) : listLeB l l = true := by
  induction l with
  | nil => rfl
  | cons a as ih => simp [listLeB, charLtB, ih]

theorem listLeB_total (a b : List Char) : listLeB a b = true ∨ listLeB b a = true := by
  induction a generalizing b with
  | nil => left; rfl
  | cons x xs ih =>
    cases b with
    | nil => right; rfl
    | cons y ys =>
      rcases Nat.lt_trichotomy x.toNat y.toNat with h | h | h
      · left; simp [listLeB, charLtB, h]
      · rcases ih ys with hh | hh
        · left; simp [listLeB, charLtB, h, hh]
        · right; simp [listLeB, charLtB, h.symm, hh]
      · right; simp [listLeB, charLtB, h]

theorem listLeB_trans : ∀ {a b c : List Char},
    listLeB a b = true → listLeB b c = true → listLeB a c = true := by
  intro a
  induction a with
  | nil => intro b c h1 h2; rfl
  | cons x xs ih =>
    intro b c h1 h2
    cases b with
    | nil => simp [listLeB] at h1
    | cons y ys =>
      cases c with
      | nil => simp [listLeB] at h2
      | cons z zs =>
        simp only [listLeB, charLtB] at h1 h2 ⊢
        rcases Nat.lt_trichotomy x.toNat y.toNat with hxy | hxy | hxy
        · rcases Nat.lt_trichotomy y.toNat z.toNat with hyz | hyz | hyz
          · simp [show x.toNat < z.toNat by omega]
          · simp [show x.toNat < z.toNat by omega]
          · simp [show ¬ y.toNat < z.toNat by omega, show z.toNat < y.toNat by omega] at h2
        · rcases Nat.lt_trichotomy y.toNat z.toNat with hyz | hyz | hyz
          · simp [show x.toNat < z.toNat by omega]
          · simp only [show ¬ x.toNat < y.toNat by omega, show ¬ y.toNat < x.toNat by omega,
              decide_eq_true_eq, if_false, decide_False] at h1
            simp only [show ¬ y.toNat < z.toNat by omega, show ¬ z.toNat < y.toNat by omega,
              decide_eq_true_eq, if_false, decide_False] at h2
            simp only [show ¬ x.toNat < z.toNat by omega, show ¬ z.toNat < x.toNat by omega,
              decide_eq_true_eq, if_false, decide_False]
            exact ih h1 h2
          · simp [show ¬ y.toNat < z.toNat by omega, show z.toNat < y.toNat by omega] at h2
        · simp [show ¬ x.toNat < y.toNat by omega, show y.toNat < x.toNat by omega] at h1

theorem listLeB_antisymm : ∀ {a b : List Char},
    listLeB a b = true → listLeB b a = true → a = b := by
  intro a
  induction a with
  | nil =>
    intro b _ h2
    cases b with
    | nil => rfl
    | cons y ys => simp [listLeB] at h2
  | cons x xs ih =>
    intro b h1 h2
    cases b with
    | nil => simp [listLeB] at h1
    | cons y ys =>
      simp only [listLeB, charLtB] at h1 h2
      rcases Nat.lt_trichotomy x.toNat y.toNat with hxy | hxy | hxy
      · simp [show ¬ y.toNat < x.toNat by omega, show x.toNat < y.toNat by omega] at h2
      · simp only [show ¬ x.toNat < y.toNat by omega, show ¬ y.toNat < x.toNat by omega,
          decide_eq_true_eq, if_false, decide_False] at h1 h2
        rw [charToNat_inj hxy, ih h1 h2]
      · simp [show ¬ x.toNat < y.toNat by omega, show y.toNat < x.toNat by omega] at h1

theorem listLeB_nil_right {l : List Char} (h : listLeB l [] = true) : l = [] := by
  cases l with
  | nil => rfl
  | cons a as => simp [listLeB] at h

theorem strLeB_refl (s : String) : strLeB s s = true := listLeB_refl s.data

theorem strLeB_trans {a b c : String} (h1 : strLeB a b = true) (h2 : strLeB b c = true) :
    strLeB a c = true := listLeB_trans h1 h2

theorem strLeB_total (a b : String) : strLeB a b = true ∨ strLeB b a = true :=
  listLeB_total a.data b.data

theorem strLeB_antisymm {a b : String} (h1 : strLeB a b = true) (h2 : strLeB b a = true) :
    a = b := strOfDataEq (listLeB_antisymm h1 h2)

theorem strLeB_empty_right {s : String} (h : strLeB s "" = true) : s = "" :=
  strOfDataNil (listLeB_nil_right h)

theorem startsWithB_append (l t : List Char) : startsWithB l (l ++ t) = true := by
  induction l with
  | nil => rfl
  | cons c cs ih => simp [startsWithB, ih]

-- ---------------------------------------------------------------------------
-- C9: log file operations
-- ---------------------------------------------------------------------------

/-- Claim C9 (amended): the log helper of lines 48-55 is append-only — after
each call of log the previous content is a prefix of the new content.  (The
summary rewrite of build at lines 481-484 replaces the content instead, see
the counterexample.) -/
theorem c9_theorem (content ts msg : String) :
    startsWithB content.data (log content ts msg).data = true := by
  show startsWithB content.data ((content ++ _).data) = true
  rw [strData_append]
  exact startsWithB_append content.data _

/-- Claim C9 counterexample: the write_text call of build at lines 481-484
replaces the log file content, so a non-empty previous content is not a
prefix of the new content. -/
theorem c9_counterexample :
    startsWithB prevLog.data (buildLogWrite "2025-01-01 00:05 UTC" "q" 3).data = false := by
  decide

-- ---------------------------------------------------------------------------
-- C8: fetch failure tolerance
-- ---------------------------------------------------------------------------

theorem allItems_append (a b : List (String × Except String (List Entry))) (limit : Nat) :
    allItems (a ++ b) limit = allItems a limit ++ allItems b limit := by
  induction a with
  | nil => rfl
  | cons p rest ih =>
    obtain ⟨src, res⟩ := p
    simp [allItems, ih]

/-- Claim C8: a fetch or parse failure for one feed yields the empty item
list for that feed, the flattened input is exactly what the remaining feeds
produce, and the aggregate result is the one built from the remaining
feeds. -/
theorem c8_theorem (source msg : String) (limit : Nat)
    (pre post : List (String × Except String (List Entry)))
    (fetchImg : String → Option String) (max_total thumb_budget : Nat) :
    fetch_feed source (Except.error msg) limit = [] ∧
    allItems (pre ++ (source, Except.error msg) :: post) limit = allItems (pre ++ post) limit ∧
    aggregate fetchImg max_total thumb_budget
        (allItems (pre ++ (source, Except.error msg) :: post) limit) =
      aggregate fetchImg max_total thumb_budget (allItems (pre ++ post) limit) := by
  have hmid : allItems (pre ++ (source, Except.error msg) :: post) limit =
      allItems (pre ++ post) limit := by
    have h1 : ((source, (Except.error msg : Except String (List Entry))) :: post) =
        [(source, Except.error msg)] ++ post := rfl
    rw [h1, allItems_append, allItems_append, allItems_append]
    simp [allItems, fetch_feed]
  exact ⟨rfl, hmid, by rw [hmid]⟩

-- ---------------------------------------------------------------------------
-- Dedup stage: relation between the capped loop and first-seen-wins
-- ---------------------------------------------------------------------------

theorem validB_of_not {it : Item} (hv : ¬ (it.title = "" ∨ it.link = "")) : validB it = true := by
  push_neg at hv
  simp [validB, hv.1, hv.2]

theorem validB_of_bad {it : Item} (hv : it.title = "" ∨ it.link = "") : validB it = false := by
  rcases hv with hv | hv <;> simp [validB, hv]

theorem dedupAux_eq (max_total : Nat) :
    ∀ (l : List Item) (seen : List String) (acc : List Item),
    dedupAux max_total l seen acc =
      acc ++ (fsAux l seen).take (max (max_total - acc.length) 1) := by
  intro l
  induction l with
  | nil => intro seen acc; simp [dedupAux, fsAux]
  | cons it rest ih =>
    intro seen acc
    by_cases hv : it.title = "" ∨ it.link = ""
    · rw [show dedupAux max_total (it :: rest) seen acc = dedupAux max_total rest seen acc by
        simp [dedupAux, hv]]
      rw [show fsAux (it :: rest) seen = fsAux rest seen by simp [fsAux, hv]]
      exact ih seen acc
    · by_cases hs : strListContains seen (normalize_key it.title it.link) = true
      · rw [show dedupAux max_total (it :: rest) seen acc = dedupAux max_total rest seen acc by
          simp [dedupAux, hv, hs]]
        rw [show fsAux (it :: rest) seen = fsAux rest seen by simp [fsAux, keyOf, hv, hs]]
        exact ih seen acc
      · rw [show fsAux (it :: rest) seen =
            it :: fsAux rest (normalize_key it.title it.link :: seen) by
          simp [fsAux, keyOf, hv, hs]]
        by_cases hb : max_total ≤ acc.length + 1
        · rw [show dedupAux max_total (it :: rest) seen acc = acc ++ [it] by
            simp [dedupAux, hv, hs]; omega]
          have hm : max (max_total - acc.length) 1 = 1 := by omega
          rw [hm]
          simp
        · rw [show dedupAux max_total (it :: rest) seen acc =
              dedupAux max_total rest (normalize_key it.title it.link :: seen) (acc ++ [it]) by
            simp [dedupAux, hv, hs]; omega]
          rw [ih (normalize_key it.title it.link :: seen) (acc ++ [it])]
          have hm : max (max_total - acc.length) 1 =
              (max (max_total - (acc ++ [it]).length) 1) + 1 := by
            simp only [List.length_append, List.length_cons, List.length_nil]
            omega
          rw [hm, List.take_succ_cons]
          simp

theorem mem_fsAux : ∀ {l : List Item} {seen : List String} {it : Item},
    it ∈ fsAux l seen → it ∈ l := by
  intro l
  induction l with
  | nil => intro seen it h; simp [fsAux] at h
  | cons x rest ih =>
    intro seen it h
    by_cases hv : x.title = "" ∨ x.link = ""
    · rw [show fsAux (x :: rest) seen = fsAux rest seen by simp [fsAux, hv]] at h
      exact List.mem_cons_of_mem x (ih h)
    · by_cases hs : strListContains seen (keyOf x) = true
      · rw [show fsAux (x :: rest) seen = fsAux rest seen by simp [fsAux, hv, hs]] at h
        exact List.mem_cons_of_mem x (ih h)
      · rw [show fsAux (x :: rest) seen = x :: fsAux rest (keyOf x :: seen) by
          simp [fsAux, hv, hs]] at h
        rcases List.mem_cons.mp h with h | h
        · exact h ▸ List.mem_cons_self x rest
        · exact List.mem_cons_of_mem x (ih h)

theorem mem_fsAux_valid : ∀ {l : List Item} {seen : List String} {it : Item},
    it ∈ fsAux l seen → validB it = true := by
  intro l
  induction l with
  | nil => intro seen it h; simp [fsAux] at h
  | cons x rest ih =>
    intro seen it h
    by_cases hv : x.title = "" ∨ x.link = ""
    · rw [show fsAux (x :: rest) seen = fsAux rest seen by simp [fsAux, hv]] at h
      exact ih h
    · by_cases hs : strListContains seen (keyOf x) = true
      · rw [show fsAux (x :: rest) seen = fsAux rest seen by simp [fsAux, hv, hs]] at h
        exact ih h
      · rw [show fsAux (x :: rest) seen = x :: fsAux rest (keyOf x :: seen) by
          simp [fsAux, hv, hs]] at h
        rcases List.mem_cons.mp h with h | h
        · exact h ▸ validB_of_not hv
        · exact ih h

theorem fsAux_filter_seen (k : String) : ∀ (l : List Item) (seen : List String),
    strListContains seen k = true →
    (fsAux l seen).filter (fun it => decide (keyOf it = k)) = [] := by
  intro l
  induction l with
  | nil => intro seen _; rfl
  | cons it rest ih =>
    intro seen h
    by_cases hv : it.title = "" ∨ it.link = ""
    · rw [show fsAux (it :: rest) seen = fsAux rest seen by simp [fsAux, hv]]
      exact ih seen h
    · by_cases hs : strListContains seen (keyOf it) = true
      · rw [show fsAux (it :: rest) seen = fsAux rest seen by simp [fsAux, hv, hs]]
        exact ih seen h
      · rw [show fsAux (it :: rest) seen = it :: fsAux rest (keyOf it :: seen) by
          simp [fsAux, hv, hs]]
        have hne : keyOf it ≠ k := by
          intro he
          rw [he] at hs
          exact hs h
        rw [List.filter_cons]
        simp only [hne, decide_False, if_false, decide_eq_true_eq, ite_false]
        exact ih (keyOf it :: seen) (by simp [strListContains, h])

theorem fsAux_filter_not (k : String) : ∀ (l : List Item) (seen : List String),
    strListContains seen k = false →
    (fsAux l seen).filter (fun it => decide (keyOf it = k)) =
      ((l.filter validB).find? (fun it => decide (keyOf it = k))).toList := by
  intro l
  induction l with
  | nil => intro seen _; rfl
  | cons it rest ih =>
    intro seen h
    by_cases hv : it.title = "" ∨ it.link = ""
    · rw [show fsAux (it :: rest) seen = fsAux rest seen by simp [fsAux, hv]]
      rw [List.filter_cons]
      simp only [validB_of_bad hv, ite_false, if_false, Bool.false_eq_true]
      exact ih seen h
    · have hvB : validB it = true := validB_of_not hv
      rw [show (it :: rest).filter validB = it :: rest.filter validB by
        simp [List.filter_cons, hvB]]
      by_cases hs : strListContains seen (keyOf it) = true
      · have hne : keyOf it ≠ k := by
          intro he
          rw [he] at hs
          rw [hs] at h
          exact Bool.true_eq_false.mp h
        rw [show fsAux (it :: rest) seen = fsAux rest seen by simp [fsAux, hv, hs]]
        rw [List.find?_cons_of_neg _ (by simp [hne])]
        exact ih seen h
      · rw [show fsAux (it :: rest) seen = it :: fsAux rest (keyOf it :: seen) by
          simp [fsAux, hv, hs]]
        by_cases hk : keyOf it = k
        · rw [List.find?_cons_of_pos _ (by simp [hk])]
          rw [List.filter_cons]
          simp only [hk, decide_True, if_true, ite_true]
          rw [fsAux_filter_seen k rest (k :: seen) (by simp [strListContains])]
          rfl
        · rw [List.find?_cons_of_neg _ (by simp [hk])]
          rw [List.filter_cons]
          simp only [hk, decide_False, if_false, decide_eq_true_eq, ite_false]
          exact ih (keyOf it :: seen) (by simp [strListContains, hk, h])

theorem fsAux_append : ∀ (l₁ l₂ : List Item) (seen : List String),
    fsAux (l₁ ++ l₂) seen = fsAux l₁ seen ++ fsAux l₂ (seenAfter l₁ seen) := by
  intro l₁
  induction l₁ with
  | nil => intro l₂ seen; rfl
  | cons it rest ih =>
    intro l₂ seen
    by_cases hv : it.title = "" ∨ it.link = ""
    · rw [show fsAux ((it :: rest) ++ l₂) seen = fsAux (rest ++ l₂) seen by simp [fsAux, hv]]
      rw [show fsAux (it :: rest) seen = fsAux rest seen by simp [fsAux, hv]]
      rw [show seenAfter (it :: rest) seen = seenAfter rest seen by simp [seenAfter, hv]]
      exact ih l₂ seen
    · by_cases hs : strListContains seen (keyOf it) = true
      · rw [show fsAux ((it :: rest) ++ l₂) seen = fsAux (rest ++ l₂) seen by
          simp [fsAux, hv, hs]]
        rw [show fsAux (it :: rest) seen = fsAux rest seen by simp [fsAux, hv, hs]]
        rw [show seenAfter (it :: rest) seen = seenAfter rest seen by simp [seenAfter, hv, hs]]
        exact ih l₂ seen
      · rw [show fsAux ((it :: rest) ++ l₂) seen =
            it :: fsAux (rest ++ l₂) (keyOf it :: seen) by simp [fsAux, hv, hs]]
        rw [show fsAux (it :: rest) seen = it :: fsAux rest (keyOf it :: seen) by
          simp [fsAux, hv, hs]]
        rw [show seenAfter (it :: rest) seen = seenAfter rest (keyOf it :: seen) by
          simp [seenAfter, hv, hs]]
        rw [ih l₂ (keyOf it :: seen)]
        rfl

theorem enrich_length (fetchImg : String → Option String) :
    ∀ (budget : Nat) (l : List Item), (enrich fetchImg budget l).length = l.length := by
  intro budget l
  induction l generalizing budget with
  | nil => rfl
  | cons it rest ih =>
    by_cases hb : budget ≤ 0
    · simp [enrich, hb]
    · cases hf : fetchImg it.link with
      | some img => simp [enrich, hb, hf, ih]
      | none => simp [enrich, hb, hf, ih]

-- ---------------------------------------------------------------------------
-- C1: first-seen-wins deduplication
-- ---------------------------------------------------------------------------

/-- Claim C1 counterexample: with cap one and two fingerprint-distinct valid
items, the second fingerprint has no representative in the deduplicated
output, so the claim as stated fails at this input. -/
theorem c1_counterexample : ¬ c1ClaimAt 1 [itemA, itemB] := by decide

/-- Claim C1 (amended): the deduplicated output is the uncapped
first-seen-wins list truncated to max(maxTotal, 1) items; every retained
item has non-empty title and link; and in the uncapped first-seen list each
fingerprint of a valid input item is represented by exactly the
first-occurring input item with that fingerprint.  Fingerprints whose first
occurrence lies beyond the cap are absent from the output, which is what the
counterexample exhibits. -/
theorem c1_theorem (max_total : Nat) (l : List Item) :
    dedup max_total l = (firstSeenSpec l).take (max max_total 1) ∧
    (∀ it ∈ dedup max_total l, validB it = true) ∧
    ∀ k, (firstSeenSpec l).filter (fun it => decide (keyOf it = k)) =
      ((l.filter validB).find? (fun it => decide (keyOf it = k))).toList := by
  have h1 : dedup max_total l = (firstSeenSpec l).take (max max_total 1) := by
    rw [dedup, dedupAux_eq, firstSeenSpec]
    simp
  refine ⟨h1, ?_, ?_⟩
  · intro it hmem
    rw [h1] at hmem
    exact mem_fsAux_valid (List.take_subset _ _ hmem)
  · intro k
    exact fsAux_filter_not k l [] rfl

/-- Claim C1 witness: the amended theorem applied at a concrete input. -/
theorem c1_witness :
    dedup 2 [itemA, itemB] = (firstSeenSpec [itemA, itemB]).take 2 ∧ validB itemA = true :=
  ⟨(c1_theorem 2 [itemA, itemB]).1, (c1_theorem 2 [itemA, itemB]).2.1 itemA (by decide)⟩

-- ---------------------------------------------------------------------------
-- C2: cap enforcement and early termination
-- ---------------------------------------------------------------------------

/-- Claim C2 counterexample: with maxTotal zero the loop appends the first
valid item before testing the cap, so the output has length one, violating
the bound claimed for every maxTotal. -/
theorem c2_counterexample : ¬ ((aggregate (fun _ => none) 0 0 [itemA]).length ≤ 0) := by decide

/-- Claim C2 (amended): for every maxTotal of at least one, the aggregate
output has length at most maxTotal, and once the deduplicated list of a
prefix input already holds maxTotal items, appending further input leaves
the aggregate output unchanged — the remaining input is not examined.  For
maxTotal zero the append-then-test order of the loop still keeps one item,
as the counterexample shows. -/
theorem c2_theorem (fetchImg : String → Option String) (max_total thumb_budget : Nat)
    (l l₂ : List Item) (h : 1 ≤ max_total) :
    (aggregate fetchImg max_total thumb_budget l).length ≤ max_total ∧
    ((dedup max_total l).length = max_total →
      aggregate fetchImg max_total thumb_budget (l ++ l₂) =
        aggregate fetchImg max_total thumb_budget l) := by
  have hmax : max max_total 1 = max_total := Nat.max_eq_left h
  have hdl : ∀ (m : List Item), dedup max_total m = (fsAux m []).take max_total := by
    intro m
    rw [dedup, dedupAux_eq]
    simp [hmax]
  constructor
  · rw [aggregate, sortByDateDesc, (List.perm_insertionSort rItem _).length_eq, enrich_length,
      hdl l]
    rw [List.length_take]
    omega
  · intro hlen
    have hfs : max_total ≤ (fsAux l []).length := by
      rw [hdl l, List.length_take] at hlen
      omega
    have hded : dedup max_total (l ++ l₂) = dedup max_total l := by
      rw [hdl (l ++ l₂), hdl l, fsAux_append l l₂ []]
      exact List.take_append_of_le_length hfs
    rw [aggregate, aggregate, hded]

/-- Claim C2 witness: the amended theorem applied at a concrete input, the
early-stop hypothesis discharged by evaluation. -/
theorem c2_witness :
    (aggregate (fun _ => none) 1 0 [itemA]).length ≤ 1 ∧
    aggregate (fun _ => none) 1 0 ([itemA] ++ [itemB]) = aggregate (fun _ => none) 1 0 [itemA] :=
  ⟨(c2_theorem (fun _ => none) 1 0 [itemA] [itemB] (by decide)).1,
   (c2_theorem (fun _ => none) 1 0 [itemA] [itemB] (by decide)).2 (by decide)⟩

-- ---------------------------------------------------------------------------
-- C3: final sort of aggregate
-- ---------------------------------------------------------------------------

theorem sortByDateDesc_sorted (l : List Item) : List.Pairwise rItem (sortByDateDesc l) := by
  haveI : IsTotal Item rItem := ⟨fun a b => strLeB_total b.date a.date⟩
  haveI : IsTrans Item rItem := ⟨fun _ _ _ hab hbc => strLeB_trans hbc hab⟩
  exact List.sorted_insertionSort rItem l

theorem filter_orderedInsert_key (d : String) (x : Item) (l : List Item) :
    (List.orderedInsert rItem x l).filter (fun it => decide (it.date = d)) =
      (x :: l).filter (fun it => decide (it.date = d)) := by
  induction l with
  | nil => rfl
  | cons b t ih =>
    by_cases hr : rItem x b
    · simp [List.orderedInsert, hr]
    · rw [show List.orderedInsert rItem x (b :: t) = b :: List.orderedInsert rItem x t by
        simp [List.orderedInsert, hr]]
      by_cases hx : x.date = d
      · have hb : b.date ≠ d := by
          intro hbd
          exact hr (show strLeB b.date x.date = true by rw [hbd, hx]; exact strLeB_refl d)
        have hfb : ∀ (m : List Item), (b :: m).filter (fun it => decide (it.date = d)) =
            m.filter (fun it => decide (it.date = d)) := by
          intro m; simp [List.filter_cons, hb]
        have hfx : ∀ (m : List Item), (x :: m).filter (fun it => decide (it.date = d)) =
            x :: m.filter (fun it => decide (it.date = d)) := by
          intro m; simp [List.filter_cons, hx]
        rw [hfb, ih, hfx, hfx, hfb]
      · by_cases hbd : b.date = d <;> simp [List.filter_cons, hbd, hx, ih]

theorem sortByDateDesc_filter (l : List Item) (d : String) :
    (sortByDateDesc l).filter (fun it => decide (it.date = d)) =
      l.filter (fun it => decide (it.date = d)) := by
  induction l with
  | nil => rfl
  | cons x t ih =>
    rw [show sortByDateDesc (x :: t) = List.orderedInsert rItem x (sortByDateDesc t) by
      simp [sortByDateDesc, List.insertionSort]]
    rw [filter_orderedInsert_key, List.filter_cons, List.filter_cons]
    rw [show (sortByDateDesc t).filter (fun it => decide (it.date = d)) =
      t.filter (fun it => decide (it.date = d)) from ih]

/-- Claim C3: the final sort of aggregate is descending in the date strings,
stable (items of any fixed date keep their relative input order), and items
with an empty date all come after items with a non-empty date. -/
theorem c3_theorem (l : List Item) :
    List.Pairwise rItem (sortByDateDesc l) ∧
    (∀ d, (sortByDateDesc l).filter (fun it => decide (it.date = d)) =
      l.filter (fun it => decide (it.date = d))) ∧
    List.Pairwise (fun x y : Item => x.date = "" → y.date = "") (sortByDateDesc l) := by
  refine ⟨sortByDateDesc_sorted l, fun d => sortByDateDesc_filter l d, ?_⟩
  refine (sortByDateDesc_sorted l).imp ?_
  intro x y hxy hx
  rw [rItem, hx] at hxy
  exact strLeB_empty_right hxy

/-- Claim C3 witness: the stability equation of the theorem at a concrete
input. -/
theorem c3_witness :
    (sortByDateDesc [itemB, itemA]).filter (fun it => decide (it.date = "")) =
      [itemB, itemA].filter (fun it => decide (it.date = "")) :=
  (c3_theorem [itemB, itemA]).2.1 ""

-- ---------------------------------------------------------------------------
-- C4: thumbnail budget
-- ---------------------------------------------------------------------------

theorem enrich_countP (fetchImg : String → Option String) :
    ∀ (budget : Nat) (l : List Item), (∀ it ∈ l, it.image = none) →
    (enrich fetchImg budget l).countP (fun it => it.image.isSome) ≤ budget := by
  intro budget l
  induction l generalizing budget with
  | nil => intro _; simp [enrich]
  | cons it rest ih =>
    intro h
    by_cases hb : budget ≤ 0
    · rw [show enrich fetchImg budget (it :: rest) = it :: rest by simp [enrich, hb]]
      have hz : (it :: rest).countP (fun it => it.image.isSome) = 0 := by
        apply List.countP_eq_zero.mpr
        intro a ha
        simp [h a ha]
      omega
    · cases hf : fetchImg it.link with
      | some img =>
        rw [show enrich fetchImg budget (it :: rest) =
            { it with image := some img } :: enrich fetchImg (budget - 1) rest by
          simp [enrich, hb, hf]]
        rw [List.countP_cons]
        have hr := ih (budget - 1) (fun a ha => h a (List.mem_cons_of_mem it ha))
        simp only [Option.isSome_some, decide_True, if_true]
        omega
      | none =>
        rw [show enrich fetchImg budget (it :: rest) =
            it :: enrich fetchImg budget rest by simp [enrich, hb, hf]]
        rw [List.countP_cons]
        have hr := ih budget (fun a ha => h a (List.mem_cons_of_mem it ha))
        have himg : it.image.isSome = false := by
          simp [h it (List.mem_cons_self it rest)]
        rw [himg]
        simpa using hr

theorem allItems_image_none :
    ∀ (feeds : List (String × Except String (List Entry))) (limit : Nat) (it : Item),
    it ∈ allItems feeds limit → it.image = none := by
  intro feeds
  induction feeds with
  | nil => intro limit it h; simp [allItems] at h
  | cons p rest ih =>
    intro limit it h
    obtain ⟨src, res⟩ := p
    rw [allItems] at h
    rcases List.mem_append.mp h with h | h
    · cases res with
      | error e => simp [fetch_feed] at h
      | ok entries =>
        rw [fetch_feed] at h
        obtain ⟨e, _, he⟩ := List.mem_map.mp h
        rw [← he]
        rfl
    · exact ih limit it h

theorem mem_dedup_sub {max_total : Nat} {l : List Item} {it : Item}
    (h : it ∈ dedup max_total l) : it ∈ l := by
  rw [dedup, dedupAux_eq] at h
  simp only [List.nil_append] at h
  exact mem_fsAux (List.take_subset _ _ h)

/-- Claim C4: after the enrichment pass of aggregate the number of items
with a non-null image is at most the thumbnail budget; a zero budget stops
the pass immediately, and a failed lookup consumes no budget. -/
theorem c4_theorem (feeds : List (String × Except String (List Entry))) (limit : Nat)
    (fetchImg : String → Option String) (max_total thumb_budget : Nat) :
    (aggregate fetchImg max_total thumb_budget (allItems feeds limit)).countP
        (fun it => it.image.isSome) ≤ thumb_budget ∧
    (∀ l : List Item, enrich fetchImg 0 l = l) ∧
    (∀ (budget : Nat) (it : Item) (rest : List Item), ¬ budget ≤ 0 →
      fetchImg it.link = none →
      enrich fetchImg budget (it :: rest) = it :: enrich fetchImg budget rest) := by
  refine ⟨?_, ?_, ?_⟩
  · rw [aggregate, sortByDateDesc, (List.perm_insertionSort rItem _).countP_eq]
    apply enrich_countP
    intro it hit
    exact allItems_image_none feeds limit it (mem_dedup_sub hit)
  · intro l
    cases l with
    | nil => rfl
    | cons it rest => simp [enrich]
  · intro budget it rest hb hf
    simp [enrich, hb, hf]

/-- Claim C4 witness: the theorem at a concrete feed set and budget, the
hypotheses of the no-decrement equation discharged by evaluation. -/
theorem c4_witness :
    (aggregate (fun _ => none) 5 3 (allItems [("NIH", Except.ok [entryA])] 10)).countP
        (fun it => it.image.isSome) ≤ 3 ∧
    enrich (fun _ => none) 0 [itemA] = [itemA] ∧
    enrich (fun _ => none) 2 (itemA :: []) = itemA :: enrich (fun _ => none) 2 [] := by
  have h := c4_theorem [("NIH", Except.ok [entryA])] 10 (fun _ => none) 5 3
  exact ⟨h.1, h.2.1 [itemA], h.2.2 2 itemA [] (by decide) rfl⟩

-- ---------------------------------------------------------------------------
-- C7: archive partition and month index ordering
-- ---------------------------------------------------------------------------

theorem monthKey_eq (it : Item) :
    monthKey it = if it.date = "" then "unknown" else String.mk (it.date.data.take 7) := by
  rw [monthKey]
  by_cases h : it.date = ""
  · simp [h]
  · have hd : it.date.data ≠ [] := fun hh => h (strOfDataNil hh)
    have hne : String.mk (it.date.data.take 10) ≠ "" := by
      intro he
      have hdata : it.date.data.take 10 = [] := congrArg String.data he
      rcases List.take_eq_nil_iff.mp hdata with h10 | hnil
      · exact absurd h10 (by omega)
      · exact hd hnil
    simp only [hne, if_false, h, ite_false]
    have : (String.mk (it.date.data.take 10)).data.take 7 = it.date.data.take 7 := by
      show (it.date.data.take 10).take 7 = it.date.data.take 7
      rw [List.take_take]
      norm_num
    rw [this]

theorem lookup_addToMonth : ∀ (m : List (String × List Item)) (k0 : String) (it : Item)
    (k : String), lookupMonth (addToMonth m k0 it) k =
      if k0 = k then lookupMonth m k ++ [it] else lookupMonth m k := by
  intro m
  induction m with
  | nil =>
    intro k0 it k
    by_cases h : k0 = k <;> simp [addToMonth, lookupMonth, h]
  | cons p rest ih =>
    intro k0 it k
    obtain ⟨k1, arr⟩ := p
    by_cases h1 : k1 = k0
    · rw [show addToMonth ((k1, arr) :: rest) k0 it = (k1, arr ++ [it]) :: rest by
        simp [addToMonth, h1]]
      by_cases h2 : k1 = k
      · rw [show k0 = k from h1 ▸ h2]
        simp [lookupMonth, h2]
      · have h3 : ¬ k0 = k := fun he => h2 (h1.symm ▸ he)
        simp [lookupMonth, h2, h3]
    · rw [show addToMonth ((k1, arr) :: rest) k0 it = (k1, arr) :: addToMonth rest k0 it by
        simp [addToMonth, h1]]
      by_cases h2 : k1 = k
      · have h3 : ¬ k0 = k := fun he => h1 (he ▸ h2.symm ▸ rfl)
        simp [lookupMonth, h2, h3]
      · simp [lookupMonth, h2, ih]

theorem byMonthAux_lookup : ∀ (items : List Item) (m : List (String × List Item)) (k : String),
    lookupMonth (byMonthAux items m) k =
      lookupMonth m k ++ items.filter (fun it => decide (monthKey it = k)) := by
  intro items
  induction items with
  | nil => intro m k; simp [byMonthAux]
  | cons it rest ih =>
    intro m k
    rw [show byMonthAux (it :: rest) m = byMonthAux rest (addToMonth m (monthKey it) it) from
      rfl]
    rw [ih, lookup_addToMonth]
    by_cases h : monthKey it = k
    · simp [List.filter_cons, h]
    · simp [List.filter_cons, h]

theorem monthsDesc_sorted (items : List Item) : List.Pairwise rStr (monthsDesc items) := by
  haveI : IsTotal String rStr := ⟨fun a b => strLeB_total b a⟩
  haveI : IsTrans String rStr := ⟨fun _ _ _ hab hbc => strLeB_trans hbc hab⟩
  exact List.sorted_insertionSort rStr _

theorem pairwise_head_max (l : List String) (m : String)
    (hs : List.Pairwise rStr l) (hm : m ∈ l) (hall : ∀ k ∈ l, strLeB k m = true) :
    l.head? = some m := by
  cases l with
  | nil => cases hm
  | cons h t =>
    rw [List.head?_cons]
    rcases List.mem_cons.mp hm with he | ht
    · rw [he]
    · have h1 : strLeB m h = true := (List.pairwise_cons.mp hs).1 m ht
      have h2 : strLeB h m = true := hall h (List.mem_cons_self h t)
      rw [strLeB_antisymm h2 h1]

/-- Claim C7 counterexample: with one dated and one undated item the index
key list is unknown first, then the month — the unknown bucket sorts first
under the plain descending comparison of line 344, not last as claimed. -/
theorem c7_counterexample :
    (monthsDesc [itemA, itemB]).getLast? = some "2024-03" ∧
    "unknown" ∈ monthsDesc [itemA, itemB] ∧ ("2024-03" : String) ≠ "unknown" := by
  decide

/-- Claim C7 (amended): items are partitioned by the first seven characters
of their date with empty dates in the sentinel unknown bucket; the index
lists the keys in descending plain-string order (a permutation of the bucket
keys); and since the letter u exceeds every digit, whenever the unknown
bucket is present together with canonical YYYY-MM keys it sorts first, not
last. -/
theorem c7_theorem (items : List Item) :
    (∀ it, monthKey it = if it.date = "" then "unknown" else String.mk (it.date.data.take 7)) ∧
    (∀ k, lookupMonth (byMonth items) k = items.filter (fun it => decide (monthKey it = k))) ∧
    List.Pairwise rStr (monthsDesc items) ∧
    List.Perm (monthsDesc items) ((byMonth items).map Prod.fst) ∧
    ("unknown" ∈ (byMonth items).map Prod.fst →
      (∀ k ∈ (byMonth items).map Prod.fst, strLeB k "unknown" = true) →
      (monthsDesc items).head? = some "unknown") := by
  refine ⟨monthKey_eq, ?_, monthsDesc_sorted items, List.perm_insertionSort rStr _, ?_⟩
  · intro k
    rw [byMonth, byMonthAux_lookup]
    rfl
  · intro hmem hall
    apply pairwise_head_max _ _ (monthsDesc_sorted items)
    · exact (List.perm_insertionSort rStr _).mem_iff.mpr hmem
    · intro k hk
      exact hall k ((List.perm_insertionSort rStr _).mem_iff.mp hk)

/-- Claim C7 witness: the amended theorem at a concrete input, the
membership hypotheses discharged by evaluation. -/
theorem c7_witness : (monthsDesc [itemA, itemB]).head? = some "unknown" :=
  (c7_theorem [itemA, itemB]).2.2.2.2 (by decide) (by decide)

-- ---------------------------------------------------------------------------
-- C6: truncate
-- ---------------------------------------------------------------------------

theorem beforeLastSpace_length : ∀ (l : List Char), (beforeLastSpace l).length ≤ l.length := by
  intro l
  induction l with
  | nil => exact Nat.le_refl 0
  | cons c rest ih =>
    by_cases hs : hasSpace rest = true
    · rw [show beforeLastSpace (c :: rest) = c :: beforeLastSpace rest by
        simp [beforeLastSpace, hs]]
      simpa using ih
    · by_cases hc : c = ' '
      · rw [show beforeLastSpace (c :: rest) = [] by simp [beforeLastSpace, hs, hc]]
        simp
      · rw [show beforeLastSpace (c :: rest) = c :: rest by simp [beforeLastSpace, hs, hc]]

theorem beforeLastSpace_split : ∀ (l : List Char), hasSpace l = true →
    ∃ t, l = beforeLastSpace l ++ ' ' :: t ∧ hasSpace t = false := by
  intro l
  induction l with
  | nil => intro h; simp [hasSpace] at h
  | cons c rest ih =>
    intro h
    by_cases hs : hasSpace rest = true
    · obtain ⟨t, ht, htn⟩ := ih hs
      refine ⟨t, ?_, htn⟩
      rw [show beforeLastSpace (c :: rest) = c :: beforeLastSpace rest by
        simp [beforeLastSpace, hs]]
      rw [List.cons_append, ← ht]
    · have hc : c = ' ' := by
        rw [hasSpace] at h
        rcases Bool.or_eq_true_iff.mp h with h1 | h1
        · exact of_decide_eq_true h1
        · exact absurd h1 hs
      refine ⟨rest, ?_, by simpa using hs⟩
      rw [show beforeLastSpace (c :: rest) = [] by simp [beforeLastSpace, hs, hc]]
      rw [hc]
      rfl

theorem getD_append_mid : ∀ (w r : List Char) (c d : Char), (w ++ c :: r).getD w.length d = c := by
  intro w
  induction w with
  | nil => intro r c d; rfl
  | cons a as ih => intro r c d; simpa using ih r c d

theorem wbe_of_split (s out : String) (w t2 : List Char)
    (hD : s.data = w ++ ' ' :: t2) (hout : out.data = w ++ ['…']) :
    wordBoundaryEllipsis s out = true := by
  rw [wordBoundaryEllipsis, hout]
  rw [List.dropLast_concat, List.getLast?_concat]
  rw [hD]
  rw [List.take_left w (' ' :: t2), getD_append_mid w t2 ' ' '…']
  simp

/-- Claim C6 counterexample: when the first word is longer than the limit,
the n-character prefix holds no space, rsplit returns it whole, and the
output cuts the word in the middle — the word-boundary part of the claim
fails at this input. -/
theorem c6_counterexample : ¬ c6ClaimAt "aaaaaa bbb" 3 := by decide

/-- Claim C6 (amended): the output length is always at most n plus one, a
cleaned input of length at most n is returned unchanged, and whenever the
n-character prefix of the cleaned input contains a space the truncated
output ends at a word boundary followed by a single ellipsis.  When that
prefix holds no space the whole prefix is kept before the ellipsis, which
can split a word — the case the counterexample exhibits. -/
theorem c6_theorem (s : String) (n : Nat) :
    (truncate s n).length ≤ n + 1 ∧
    ((clean_text s).length ≤ n → truncate s n = clean_text s) ∧
    (n < (clean_text s).length → hasSpace ((clean_text s).data.take n) = true →
      wordBoundaryEllipsis (clean_text s) (truncate s n) = true) := by
  refine ⟨?_, ?_, ?_⟩
  · by_cases hlen : (clean_text s).length ≤ n
    · rw [show truncate s n = clean_text s by simp [truncate, hlen]]
      omega
    · rw [show truncate s n =
          String.mk (beforeLastSpace ((clean_text s).data.take n)) ++ "…" by
        simp [truncate, hlen]]
      have h1 : (String.mk (beforeLastSpace ((clean_text s).data.take n)) ++ "…").length =
          (beforeLastSpace ((clean_text s).data.take n)).length + 1 := by
        rw [show (String.mk (beforeLastSpace ((clean_text s).data.take n)) ++ "…").length =
            (beforeLastSpace ((clean_text s).data.take n) ++ ("…" : String).data).length from
          rfl]
        rw [List.length_append]
        rw [show ("…" : String).data.length = 1 by decide]
      rw [h1]
      have h2 := beforeLastSpace_length ((clean_text s).data.take n)
      have h3 := List.length_take n (clean_text s).data
      omega
  · intro h
    simp [truncate, h]
  · intro hlt hsp
    have hnot : ¬ (clean_text s).length ≤ n := by omega
    obtain ⟨tl, hsplit, _⟩ := beforeLastSpace_split _ hsp
    have htr : truncate s n =
        String.mk (beforeLastSpace ((clean_text s).data.take n)) ++ "…" := by
      simp [truncate, hnot]
    have hdata : (truncate s n).data = beforeLastSpace ((clean_text s).data.take n) ++ ['…'] := by
      rw [htr, strData_append]
    have h0 : ((clean_text s).data.take n) ++ (clean_text s).data.drop n =
        (beforeLastSpace ((clean_text s).data.take n) ++ ' ' :: tl) ++
          (clean_text s).data.drop n :=
      congrArg (fun l => l ++ (clean_text s).data.drop n) hsplit
    have hseq : (clean_text s).data = beforeLastSpace ((clean_text s).data.take n) ++
        ' ' :: (tl ++ (clean_text s).data.drop n) :=
      calc (clean_text s).data
          = ((clean_text s).data.take n) ++ (clean_text s).data.drop n :=
            (List.take_append_drop n _).symm
        _ = (beforeLastSpace ((clean_text s).data.take n) ++ ' ' :: tl) ++
            (clean_text s).data.drop n := h0
        _ = beforeLastSpace ((clean_text s).data.take n) ++
            ' ' :: (tl ++ (clean_text s).data.drop n) := by simp
    exact wbe_of_split (clean_text s) (truncate s n) _ _ hseq hdata

/-- Claim C6 witness: the amended theorem at concrete inputs, its
hypotheses discharged by evaluation. -/
theorem c6_witness :
    (truncate "hello world foo" 13).length ≤ 14 ∧
    truncate "short text" 360 = clean_text "short text" ∧
    wordBoundaryEllipsis (clean_text "hello world foo") (truncate "hello world foo" 13) = true :=
  ⟨(c6_theorem ("hello world foo") 13).1,
   (c6_theorem ("short text") 360).2.1 (by decide),
   (c6_theorem ("hello world foo") 13).2.2 (by decide) (by decide)⟩

-- ---------------------------------------------------------------------------
-- C10: catalog bucket invariant
-- ---------------------------------------------------------------------------

theorem kfn_good {x : RawRec} {k : String} (h : kfn x = some k) :
    lowerStr (stripStr x.name) ≠ "" ∧ domain_of x.url ≠ "" := by
  rw [kfn] at h
  by_cases hc : lowerStr (stripStr x.name) ≠ "" ∧ domain_of x.url ≠ ""
  · exact hc
  · simp only [hc, if_false, ite_false] at h
    exact absurd h (by simp [hc])

theorem catDedupAux_drop {x : RawRec} (hx : kfn x = none) :
    ∀ (pre post : List RawRec) (seen : List String) (acc : List RawRec),
    catDedupAux (pre ++ x :: post) seen acc = catDedupAux (pre ++ post) seen acc := by
  intro pre
  induction pre with
  | nil =>
    intro post seen acc
    simp [catDedupAux, hx]
  | cons y rest ih =>
    intro post seen acc
    cases hk : kfn y with
    | none =>
      simp only [List.cons_append, catDedupAux, hk]
      exact ih post seen acc
    | some k =>
      by_cases hs : strListContains seen k = true
      · simp only [List.cons_append, catDedupAux, hk, hs, if_true, ite_true]
        exact ih post seen acc
      · simp only [List.cons_append, catDedupAux, hk, hs, if_false, ite_false]
        exact ih post (k :: seen) (acc ++ [y])

theorem mem_catDedupAux : ∀ (raw : List RawRec) (seen : List String) (acc : List RawRec)
    (x : RawRec), x ∈ catDedupAux raw seen acc → x ∈ acc ∨ ∃ k, kfn x = some k := by
  intro raw
  induction raw with
  | nil =>
    intro seen acc x h
    left
    simpa [catDedupAux] using h
  | cons y rest ih =>
    intro seen acc x h
    cases hk : kfn y with
    | none =>
      rw [show catDedupAux (y :: rest) seen acc = catDedupAux rest seen acc by
        simp [catDedupAux, hk]] at h
      exact ih seen acc x h
    | some k =>
      by_cases hs : strListContains seen k = true
      · rw [show catDedupAux (y :: rest) seen acc = catDedupAux rest seen acc by
          simp [catDedupAux, hk, hs]] at h
        exact ih seen acc x h
      · rw [show catDedupAux (y :: rest) seen acc =
            catDedupAux rest (k :: seen) (acc ++ [y]) by simp [catDedupAux, hk, hs]] at h
        rcases ih (k :: seen) (acc ++ [y]) x h with hacc | hgood
        · rcases List.mem_append.mp hacc with h1 | h1
          · exact Or.inl h1
          · right
            have hxy : x = y := by simpa using h1
            exact ⟨k, hxy ▸ hk⟩
        · exact Or.inr hgood

theorem mem_bucketize_programs : ∀ (recs : List RawRec) (p : ProgramOut),
    p ∈ (bucketize recs).programs → ∃ rec, rec ∈ recs ∧ p = mkProgram rec := by
  intro recs
  induction recs with
  | nil => intro p h; simp [bucketize] at h
  | cons rec rest ih =>
    intro p h
    by_cases h1 : lowerStr rec.kind = "program"
    · have h2 : p ∈ mkProgram rec :: (bucketize rest).programs := by
        rw [show bucketize (rec :: rest) = { bucketize rest with
          programs := mkProgram rec :: (bucketize rest).programs } by simp [bucketize, h1]] at h
        exact h
      rcases List.mem_cons.mp h2 with he | hm
      · exact ⟨rec, List.mem_cons_self rec rest, he⟩
      · obtain ⟨r, hr, he⟩ := ih p hm
        exact ⟨r, List.mem_cons_of_mem rec hr, he⟩
    · by_cases h2 : lowerStr rec.kind = "expert"
      · have h3 : p ∈ (bucketize rest).programs := by
          rw [show bucketize (rec :: rest) = { bucketize rest with
            experts := mkExpert rec :: (bucketize rest).experts } by
            simp [bucketize, h1, h2]] at h
          exact h
        obtain ⟨r, hr, he⟩ := ih p h3
        exact ⟨r, List.mem_cons_of_mem rec hr, he⟩
      · have h3 : p ∈ (bucketize rest).programs := by
          rw [show bucketize (rec :: rest) = { bucketize rest with
            institutions := mkInstitution rec :: (bucketize rest).institutions } by
            simp [bucketize, h1, h2]] at h
          exact h
        obtain ⟨r, hr, he⟩ := ih p h3
        exact ⟨r, List.mem_cons_of_mem rec hr, he⟩

theorem mem_bucketize_experts : ∀ (recs : List RawRec) (p : ExpertOut),
    p ∈ (bucketize recs).experts → ∃ rec, rec ∈ recs ∧ p = mkExpert rec := by
  intro recs
  induction recs with
  | nil => intro p h; simp [bucketize] at h
  | cons rec rest ih =>
    intro p h
    by_cases h1 : lowerStr rec.kind = "program"
    · have h3 : p ∈ (bucketize rest).experts := by
        rw [show bucketize (rec :: rest) = { bucketize rest with
          programs := mkProgram rec :: (bucketize rest).programs } by simp [bucketize, h1]] at h
        exact h
      obtain ⟨r, hr, he⟩ := ih p h3
      exact ⟨r, List.mem_cons_of_mem rec hr, he⟩
    · by_cases h2 : lowerStr rec.kind = "expert"
      · have h3 : p ∈ mkExpert rec :: (bucketize rest).experts := by
          rw [show bucketize (rec :: rest) = { bucketize rest with
            experts := mkExpert rec :: (bucketize rest).experts } by
            simp [bucketize, h1, h2]] at h
          exact h
        rcases List.mem_cons.mp h3 with he | hm
        · exact ⟨rec, List.mem_cons_self rec rest, he⟩
        · obtain ⟨r, hr, he⟩ := ih p hm
          exact ⟨r, List.mem_cons_of_mem rec hr, he⟩
      · have h3 : p ∈ (bucketize rest).experts := by
          rw [show bucketize (rec :: rest) = { bucketize rest with
            institutions := mkInstitution rec :: (bucketize rest).institutions } by
            simp [bucketize, h1, h2]] at h
          exact h
        obtain ⟨r, hr, he⟩ := ih p h3
        exact ⟨r, List.mem_cons_of_mem rec hr, he⟩

theorem mem_bucketize_institutions : ∀ (recs : List RawRec) (p : InstitutionOut),
    p ∈ (bucketize recs).institutions → ∃ rec, rec ∈ recs ∧ p = mkInstitution rec := by
  intro recs
  induction recs with
  | nil => intro p h; simp [bucketize] at h
  | cons rec rest ih =>
    intro p h
    by_cases h1 : lowerStr rec.kind = "program"
    · have h3 : p ∈ (bucketize rest).institutions := by
        rw [show bucketize (rec :: rest) = { bucketize rest with
          programs := mkProgram rec :: (bucketize rest).programs } by simp [bucketize, h1]] at h
        exact h
      obtain ⟨r, hr, he⟩ := ih p h3
      exact ⟨r, List.mem_cons_of_mem rec hr, he⟩
    · by_cases h2 : lowerStr rec.kind = "expert"
      · have h3 : p ∈ (bucketize rest).institutions := by
          rw [show bucketize (rec :: rest) = { bucketize rest with
            experts := mkExpert rec :: (bucketize rest).experts } by
            simp [bucketize, h1, h2]] at h
          exact h
        obtain ⟨r, hr, he⟩ := ih p h3
        exact ⟨r, List.mem_cons_of_mem rec hr, he⟩
      · have h3 : p ∈ mkInstitution rec :: (bucketize rest).institutions := by
          rw [show bucketize (rec :: rest) = { bucketize rest with
            institutions := mkInstitution rec :: (bucketize rest).institutions } by
            simp [bucketize, h1, h2]] at h
          exact h
        rcases List.mem_cons.mp h3 with he | hm
        · exact ⟨rec, List.mem_cons_self rec rest, he⟩
        · obtain ⟨r, hr, he⟩ := ih p hm
          exact ⟨r, List.mem_cons_of_mem rec hr, he⟩

/-- Claim C10: every record in the persisted catalog buckets has a name
that is non-empty after stripping and lowercasing and a URL with a
non-empty parsed domain, and a raw record lacking either is silently
dropped — removing it from the input leaves the whole catalog unchanged. -/
theorem c10_theorem (raw : List RawRec) :
    (∀ p ∈ (build_catalog raw).programs,
      lowerStr (stripStr p.name) ≠ "" ∧ domain_of p.url ≠ "") ∧
    (∀ e ∈ (build_catalog raw).experts,
      lowerStr (stripStr e.name) ≠ "" ∧ domain_of e.url ≠ "") ∧
    (∀ i ∈ (build_catalog raw).institutions,
      lowerStr (stripStr i.name) ≠ "" ∧ domain_of i.url ≠ "") ∧
    (∀ (x : RawRec) (pre post : List RawRec), kfn x = none →
      build_catalog (pre ++ x :: post) = build_catalog (pre ++ post)) := by
  have hded : ∀ x, x ∈ catDedupAux raw [] [] → ∃ k, kfn x = some k := by
    intro x h
    rcases mem_catDedupAux raw [] [] x h with h | h
    · simp at h
    · exact h
  refine ⟨?_, ?_, ?_, ?_⟩
  · intro p hp
    obtain ⟨rec, hrec, hpe⟩ := mem_bucketize_programs _ p hp
    obtain ⟨k, hk⟩ := hded rec hrec
    rw [hpe]
    exact kfn_good hk
  · intro e he
    obtain ⟨rec, hrec, hpe⟩ := mem_bucketize_experts _ e he
    obtain ⟨k, hk⟩ := hded rec hrec
    rw [hpe]
    exact kfn_good hk
  · intro i hi
    obtain ⟨rec, hrec, hpe⟩ := mem_bucketize_institutions _ i hi
    obtain ⟨k, hk⟩ := hded rec hrec
    rw [hpe]
    exact kfn_good hk
  · intro x pre post hx
    rw [build_catalog, build_catalog, catDedupAux_drop hx]

/-- Claim C10 witness: the theorem at concrete inputs, the membership and
missing-key hypotheses discharged by evaluation. -/
theorem c10_witness :
    (lowerStr (stripStr (mkProgram rawA).name) ≠ "" ∧ domain_of (mkProgram rawA).url ≠ "") ∧
    build_catalog ([] ++ rawBad :: []) = build_catalog ([] ++ []) :=
  ⟨(c10_theorem [rawA]).1 (mkProgram rawA) (by decide),
   (c10_theorem []).2.2.2 rawBad [] [] (by decide)⟩

-- ---------------------------------------------------------------------------
-- C5: fingerprint determinism and the impossibility of the converse
-- ---------------------------------------------------------------------------

theorem mixWords_bounded (x y : Sha1State) : boundedWords (mixWords x y) := by
  unfold boundedWords mixWords
  refine ⟨?_, ?_, ?_, ?_, ?_⟩ <;> exact Nat.mod_lt _ (by norm_num)

theorem processBlock_bounded (block : List Nat) (h : Sha1State) :
    boundedWords (processBlock block h) :=
  mixWords_bounded h _

theorem foldl_processBlock_bounded : ∀ (bs : List (List Nat)) (h : Sha1State),
    boundedWords h → boundedWords (bs.foldl (fun h b => processBlock b h) h) := by
  intro bs
  induction bs with
  | nil => intro h hb; exact hb
  | cons b rest ih =>
    intro h _
    rw [List.foldl_cons]
    exact ih (processBlock b h) (processBlock_bounded b h)

theorem sha1Words_bounded (msg : List Nat) : boundedWords (sha1Words msg) := by
  rw [sha1Words]
  exact foldl_processBlock_bounded _ _ (by unfold boundedWords; norm_num)

theorem encode_step {a b K : Nat} (ha : a < K) (hb : b < 4294967296) :
    a * 4294967296 + b < K * 4294967296 := by
  calc a * 4294967296 + b < a * 4294967296 + 4294967296 := by omega
    _ = (a + 1) * 4294967296 := by ring
    _ ≤ K * 4294967296 := Nat.mul_le_mul_right _ ha

theorem encodeWords_lt {h : Sha1State} (hb : boundedWords h) :
    encodeWords h < 4294967296 * 4294967296 * 4294967296 * 4294967296 * 4294967296 := by
  obtain ⟨a, b, c, d, e⟩ := h
  obtain ⟨ha, hbb, hc, hd, he⟩ := hb
  unfold encodeWords
  have e1 : a * 4294967296 + b < 4294967296 * 4294967296 := encode_step ha hbb
  have e2 := encode_step e1 hc
  have e3 := encode_step e2 hd
  exact encode_step e3 he

theorem encodeWords_inj {x y : Sha1State} (hx : boundedWords x) (hy : boundedWords y)
    (h : encodeWords x = encodeWords y) : x = y := by
  obtain ⟨a, b, c, d, e⟩ := x
  obtain ⟨a2, b2, c2, d2, e2⟩ := y
  obtain ⟨ha, hb, hc, hd, he⟩ := hx
  obtain ⟨ha2, hb2, hc2, hd2, he2⟩ := hy
  unfold encodeWords at h
  dsimp only at h ha hb hc hd he ha2 hb2 hc2 hd2 he2
  have hco : a = a2 ∧ b = b2 ∧ c = c2 ∧ d = d2 ∧ e = e2 := by omega
  obtain ⟨rfl, rfl, rfl, rfl, rfl⟩ := hco
  rfl

theorem lowerStr_aStr (n : Nat) : lowerStr (aStr n) = aStr n := by
  unfold lowerStr aStr
  rw [show (String.mk (List.replicate n 'a')).data = List.replicate n 'a' from rfl]
  rw [List.map_replicate, show Char.toLower 'a' = 'a' from by decide]

theorem collapseWs_aStr (n : Nat) :
    collapseWsAux (List.replicate n 'a') false = List.replicate n 'a' := by
  induction n with
  | zero => rfl
  | succ m ih =>
    rw [List.replicate_succ, collapseWsAux]
    simp [show isSpaceChar 'a' = false from by decide, ih]

theorem stripChars_aStr (n : Nat) : stripChars (List.replicate n 'a') = List.replicate n 'a' := by
  have hdw : ∀ m : Nat, (List.replicate m 'a').dropWhile isSpaceChar = List.replicate m 'a' := by
    intro m
    cases m with
    | zero => rfl
    | succ k =>
      rw [List.replicate_succ, List.dropWhile_cons]
      simp [show isSpaceChar 'a' = false from by decide]
  unfold stripChars
  rw [hdw, List.reverse_replicate, hdw, List.reverse_replicate]

theorem filter_replicate_of_true {p : Char → Bool} (hp : p 'a' = true) :
    ∀ n, (List.replicate n 'a').filter p = List.replicate n 'a' := by
  intro n
  induction n with
  | zero => rfl
  | succ m ih =>
    rw [List.replicate_succ, List.filter_cons]
    simp [hp, ih]

theorem normTitle_aStr (n : Nat) : normTitle (aStr n) = aStr n := by
  simp only [normTitle]
  rw [lowerStr_aStr]
  have h1 : collapseWsStrip (aStr n) = aStr n := by
    unfold collapseWsStrip aStr
    rw [show (String.mk (List.replicate n 'a')).data = List.replicate n 'a' from rfl]
    rw [collapseWs_aStr, stripChars_aStr]
  rw [h1]
  rw [show (aStr n).data = List.replicate n 'a' from rfl]
  rw [filter_replicate_of_true (by decide) n]
  rfl

/-- Claim C5 counterexample: the SHA-1 digest takes finitely many values
while the normalised titles of the strings of n letters a are pairwise
distinct, so by pigeonhole two different titles share a fingerprint over the
same host — the claimed equivalence is false, its forward direction cannot
hold. -/
theorem c5_counterexample :
    ¬ (∀ t1 l1 t2 l2 : String, normalize_key t1 l1 = normalize_key t2 l2 ↔
      (lowerStr (netlocOf l1) = lowerStr (netlocOf l2) ∧ normTitle t1 = normTitle t2)) := by
  intro H
  have hlt : ∀ n : Nat, encodeWords (sha1Words (utf8Bytes (keyStr (aStr n) ""))) <
      4294967296 * 4294967296 * 4294967296 * 4294967296 * 4294967296 :=
    fun n => encodeWords_lt (sha1Words_bounded _)
  obtain ⟨m, n, hmn, hf⟩ := Finite.exists_ne_map_eq_of_infinite
    (fun j : ℕ => (⟨encodeWords (sha1Words (utf8Bytes (keyStr (aStr j) ""))), hlt j⟩ :
      Fin (4294967296 * 4294967296 * 4294967296 * 4294967296 * 4294967296)))
  have henc : encodeWords (sha1Words (utf8Bytes (keyStr (aStr m) ""))) =
      encodeWords (sha1Words (utf8Bytes (keyStr (aStr n) ""))) := congrArg Fin.val hf
  have hwords := encodeWords_inj (sha1Words_bounded _) (sha1Words_bounded _) henc
  have hkey : normalize_key (aStr m) "" = normalize_key (aStr n) "" := by
    rw [normalize_key, normalize_key, sha1Hex, sha1Hex, hwords]
  have hnt := ((H (aStr m) "" (aStr n) "").mp hkey).2
  rw [normTitle_aStr, normTitle_aStr] at hnt
  apply hmn
  have hlen : (List.replicate m 'a').length = (List.replicate n 'a').length :=
    congrArg (fun s : String => s.data.length) hnt
  simpa using hlen

/-- Claim C5 (amended): the fingerprint is a deterministic function of the
lowercase host and the normalised title — equal hosts and equal normalised
titles always yield equal fingerprints; no randomness or locale enters.
The converse direction of the original claim is refuted by the pigeonhole
counterexample. -/
theorem c5_theorem (t1 l1 t2 l2 : String)
    (h1 : lowerStr (netlocOf l1) = lowerStr (netlocOf l2))
    (h2 : normTitle t1 = normTitle t2) :
    normalize_key t1 l1 = normalize_key t2 l2 := by
  rw [normalize_key, normalize_key, keyStr, keyStr, h1, h2]

/-- Claim C5 witness: the amended theorem at concrete inputs whose hosts
agree after lowercasing and whose titles agree after normalisation. -/
theorem c5_witness :
    lowerStr (netlocOf "http://X.com/a") = lowerStr (netlocOf "http://x.com/b") ∧
    normTitle "Hello,  World!" = normTitle "hello world" ∧
    normalize_key "Hello,  World!" "http://X.com/a" = normalize_key "hello world" "http://x.com/b" :=
  ⟨by decide, by decide, c5_theorem ("Hello,  World!") ("http://X.com/a") ("hello world")
    ("http://x.com/b") (by decide) (by decide)⟩
